import Mathlib

/-
Verification of the tic-tac-toe decision-and-learning engine
(`tictactoe_ai.py`): board rules, minimax search with alpha-beta
pruning, the heuristic strategies, and the tabular Q-learning agent.

Python cells are one-character strings, so a board is a list of nine
strings, each " ", "X" or "O".  Moves are Python ints.  Q-values and
the learning hyper-parameters are modelled as rationals.
-/

namespace TTT

/-- A board: the list `self.board` of nine cells, each the one-character
string " ", "X" or "O". -/
abbrev Board := List String

/-- Reading `self.board[i]` for an in-range index (out-of-range access never
happens in the source because every access is guarded; the default is inert). -/
def cell (b : Board) (i : Nat) : String := b.getD i " "

/-- Python `TicTacToeAI.is_valid_move`: `0 <= position < 9 and
self.board[position] == ' '`.  Positions are ints, so the argument is an
integer; the board access only happens when the range check passed. -/
def is_valid_move (b : Board) (position : Int) : Bool :=
  decide (0 ≤ position) && decide (position < 9) && (cell b position.toNat == " ")

/-- Python `TicTacToeAI.make_move`: mutates the cell and returns True when the
move is valid, otherwise leaves the board unchanged and returns False.  The
returned pair is (returned boolean, board after the call). -/
def make_move (b : Board) (position : Int) (player : String) : Bool × Board :=
  if is_valid_move b position then (true, b.set position.toNat player)
  else (false, b)

/-- The list `wins` of the 8 winning index triples from `check_winner`:
three rows, three columns, two diagonals. -/
def wins : List (Nat × Nat × Nat) :=
  [(0, 1, 2), (3, 4, 5), (6, 7, 8),
   (0, 3, 6), (1, 4, 7), (2, 5, 8),
   (0, 4, 8), (2, 4, 6)]

/-- The chained comparison `board[c0] == board[c1] == board[c2] != ' '` from
`check_winner`. -/
def lineWon (b : Board) (t : Nat × Nat × Nat) : Bool :=
  cell b t.1 == cell b t.2.1 && cell b t.2.1 == cell b t.2.2 && cell b t.2.2 != " "

/-- The `for combo in wins` loop of `check_winner`: return the first cell of
the first fully occupied line, if any. -/
def scanWins (b : Board) : List (Nat × Nat × Nat) → Option String
  | [] => none
  | t :: rest => if lineWon b t then some (cell b t.1) else scanWins b rest

/-- Python `TicTacToeAI.check_winner`: the mark of a winning line if one
exists, else "Tie" when no empty cell remains, else `none` (game goes on). -/
def check_winner (b : Board) : Option String :=
  match scanWins b wins with
  | some w => some w
  | none => if " " ∈ b then none else some "Tie"

/-- Python `TicTacToeAI.get_available_moves`:
`[i for i in range(9) if self.board[i] == ' ']`. -/
def get_available_moves (b : Board) : List Nat :=
  (List.range 9).filter (fun i => cell b i == " ")

/-- Scores handled by the search: Python floats that are either an exact
integer (every value `minimax` returns) or one of the infinities
`-math.inf` / `math.inf` used as initial bounds.  The linear order of
`WithBot (WithTop Int)` is exactly the float comparison on these values. -/
abbrev Score := WithBot (WithTop Int)

/-- The initial bound `-math.inf`. -/
def negInf : Score := ⊥

/-- The initial bound `math.inf`. -/
def posInf : Score := ((⊤ : WithTop Int) : Score)

/-- An integer score. -/
def finScore (z : Int) : Score := ((z : WithTop Int) : Score)

mutual

/-- Python `TicTacToeAI.minimax(depth, is_maximizing, alpha, beta)` on a given
board.  The extra `fuel` argument bounds the recursion depth; the wrapper
`minimax` below instantiates it with the number of empty cells, which every
recursive call decrements in lock-step with the cell just filled, so the
`fuel = 0` fallback is unreachable (a board with no empty cell is terminal
and is answered before `fuel` is even inspected). -/
def minimaxF (fuel : Nat) (b : Board) (depth : Nat) (is_maximizing : Bool)
    (alpha beta : Score) : Score :=
  let winner := check_winner b
  if winner = some "X" then finScore (10 - (depth : Int))
  else if winner = some "O" then finScore ((depth : Int) - 10)
  else if winner = some "Tie" then finScore 0
  else
    match fuel with
    | 0 => finScore 0
    | f + 1 =>
      if is_maximizing then
        maxLoop f b depth (get_available_moves b) negInf alpha beta
      else
        minLoop f b depth (get_available_moves b) posInf beta alpha
termination_by (fuel, 0, 0)

/-- The maximizing `for move in self.get_available_moves()` loop of `minimax`:
place "X", score the child, track `max_eval` and `alpha`, break once
`beta <= alpha`. -/
def maxLoop (f : Nat) (b : Board) (depth : Nat) (moves : List Nat)
    (max_eval alpha beta : Score) : Score :=
  match moves with
  | [] => max_eval
  | move :: rest =>
    let eval_score := minimaxF f (b.set move "X") (depth + 1) false alpha beta
    let max_eval2 := max max_eval eval_score
    let alpha2 := max alpha eval_score
    if beta ≤ alpha2 then max_eval2 else maxLoop f b depth rest max_eval2 alpha2 beta
termination_by (f, 1, moves.length)

/-- The minimizing loop of `minimax`: place "O", score the child, track
`min_eval` and `beta`, break once `beta <= alpha`. -/
def minLoop (f : Nat) (b : Board) (depth : Nat) (moves : List Nat)
    (min_eval beta alpha : Score) : Score :=
  match moves with
  | [] => min_eval
  | move :: rest =>
    let eval_score := minimaxF f (b.set move "O") (depth + 1) true alpha beta
    let min_eval2 := min min_eval eval_score
    let beta2 := min beta eval_score
    if beta2 ≤ alpha then min_eval2 else minLoop f b depth rest min_eval2 beta2 alpha
termination_by (f, 1, moves.length)

end

/-- The call `self.minimax(depth, is_maximizing, alpha, beta)`: the fuel is
the number of empty cells of the current board. -/
def minimax (b : Board) (depth : Nat) (is_maximizing : Bool)
    (alpha beta : Score) : Score :=
  minimaxF (b.count " ") b depth is_maximizing alpha beta

/-- The score `get_best_move` computes for a candidate move: place the mark,
run `self.minimax(0, player == 'O')` with the default bounds, restore. -/
def scoreFor (b : Board) (player : String) (move : Nat) : Score :=
  minimax (b.set move player) 0 (player == "O") negInf posInf

/-- The `for move in self.get_available_moves()` loop of `get_best_move`:
`best_move` is replaced only on a strict `>` (player X) or `<` (player O)
comparison with `best_score`. -/
def bestLoop (score : Nat → Score) (player : String) (moves : List Nat)
    (best_score : Score) (best_move : Int) : Int :=
  match moves with
  | [] => best_move
  | move :: rest =>
    let s := score move
    if player = "X" ∧ best_score < s then bestLoop score player rest s (Int.ofNat move)
    else if player = "O" ∧ s < best_score then bestLoop score player rest s (Int.ofNat move)
    else bestLoop score player rest best_score best_move

/-- Python `TicTacToeAI.get_best_move(player)`: `best_score` starts at
`-math.inf` for X and `math.inf` for O, `best_move` starts at `-1`. -/
def get_best_move (b : Board) (player : String) : Int :=
  bestLoop (scoreFor b player) player (get_available_moves b)
    (if player = "X" then negInf else posInf) (-1)

/-- The win-probing loops of the heuristics: place `mark` on each candidate in
turn and return the first move for which `check_winner` reports `mark` (the
board is restored before returning, so the probe is pure on `b.set`). -/
def findWinningMove (b : Board) (mark : String) : List Nat → Option Nat
  | [] => none
  | move :: rest =>
    if check_winner (b.set move mark) = some mark then some move
    else findWinningMove b mark rest

/-- The edge cells preferred by the defensive strategy. -/
def edges : List Nat := [1, 3, 5, 7]

/-- The local `opponent = 'O' if player == 'X' else 'X'` of the defensive
strategy. -/
abbrev opponentOf (player : String) : String := if player = "X" then "O" else "X"

/-- Whether placing `mark` on cell `m` makes `check_winner` report `mark`
(the immediate-win probe of the heuristics). -/
abbrev winsFor (b : Board) (mark : String) (m : Nat) : Prop :=
  check_winner (b.set m mark) = some mark

/-- Python `TicTacToeAI.get_defensive_move(player)`.  `pick` stands for
`random.choice`; it is only consulted in the two random fallback branches. -/
def get_defensive_move (b : Board) (player : String) (pick : List Nat → Nat) : Nat :=
  let available := get_available_moves b
  let opponent := opponentOf player
  match findWinningMove b opponent available with
  | some move => move
  | none =>
    match findWinningMove b player available with
    | some move => move
    | none =>
      if 4 ∈ available then 4
      else
        let edge_moves := available.filter (fun m => edges.contains m)
        if edge_moves ≠ [] then pick edge_moves
        else pick available

/-- Result of one iteration of the `while True` loop of
`TicTacToeAI.play_self_game` after the strategy produced its move. -/
inductive StepOutcome
  | finished (winner : String)
  | continuing (b : Board) (next_player : String)
deriving DecidableEq

/-- One iteration of the loop body of `play_self_game`, given the move the
acting strategy returned: `self.make_move(move, self.current_player)` is
called with its boolean result discarded, then `check_winner` decides whether
the game is over; otherwise the current player is switched and play goes on. -/
def stepGame (b : Board) (player : String) (move : Int) : StepOutcome :=
  let b2 := (make_move b move player).2
  match check_winner b2 with
  | some w => .finished w
  | none => .continuing b2 (if player = "X" then "O" else "X")

/-- The Q-table `defaultdict(lambda: defaultdict(float))`: an insertion-ordered
mapping from state key to an insertion-ordered mapping from action to value.
Python dicts keep insertion order; a lookup on a missing key of a defaultdict
inserts the default at the end. -/
abbrev QTable := List (String × List (Int × ℚ))

/-- Lookup in the inner dict (first binding of the key, as in a dict where
keys are unique). -/
def innerLookup : List (Int × ℚ) → Int → Option ℚ
  | [], _ => none
  | (a0, v) :: rest, a => if a0 = a then some v else innerLookup rest a

/-- Lookup in the outer dict. -/
def outerLookup : QTable → String → Option (List (Int × ℚ))
  | [], _ => none
  | (s0, inner) :: rest, s => if s0 = s then some inner else outerLookup rest s

/-- First-wins combination of optional bindings (used only to state the
lookup lemmas below). -/
def orDefault (o o2 : Option ℚ) : Option ℚ :=
  match o with
  | some v => some v
  | none => o2

/-- The binding the serialized table stores for a (state, action) pair:
`none` when the pair was never materialized. -/
def pairEntry (t : QTable) (s : String) (a : Int) : Option ℚ :=
  match outerLookup t s with
  | none => none
  | some inner => innerLookup inner a

/-- The value function the table represents: stored value, defaulting to 0
for an absent pair.  This is the pure observation used to state properties;
the executable reader of the source is `get_q_value` below, which also
materializes the pair. -/
def valueOf (t : QTable) (s : String) (a : Int) : ℚ := (pairEntry t s a).getD 0

/-- Whether the (state, action) pair is explicitly present in the table. -/
def containsPair (t : QTable) (s : String) (a : Int) : Bool :=
  (pairEntry t s a).isSome

/-- Python `QLearningAgent.get_q_value(state, action)`, i.e.
`self.q_table[state][action]` on the nested defaultdict: returns the stored
value or 0, and, as a side effect of `__getitem__`, inserts a fresh binding
(at the end of the respective dict) for any missing key on the path.  The
result pair is (returned value, table after the call). -/
def get_q_value (t : QTable) (s : String) (a : Int) : ℚ × QTable :=
  match t with
  | [] => (0, [(s, [(a, 0)])])
  | (s0, inner) :: rest =>
    if s0 = s then
      match innerLookup inner a with
      | some v => (v, (s0, inner) :: rest)
      | none => (0, (s0, inner ++ [(a, 0)]) :: rest)
    else
      let r := get_q_value rest s a
      (r.1, (s0, inner) :: r.2)

/-- Dict `__setitem__` on the inner dict: overwrite in place, or append. -/
def setInner (inner : List (Int × ℚ)) (a : Int) (v : ℚ) : List (Int × ℚ) :=
  match inner with
  | [] => [(a, v)]
  | (a0, v0) :: rest => if a0 = a then (a0, v) :: rest else (a0, v0) :: setInner rest a v

/-- The assignment `self.q_table[state][action] = new_q`: the outer
defaultdict materializes the state if missing, then the inner dict stores the
value under the action. -/
def setQ (t : QTable) (s : String) (a : Int) (v : ℚ) : QTable :=
  match t with
  | [] => [(s, [(a, v)])]
  | (s0, inner) :: rest =>
    if s0 = s then (s0, setInner inner a v) :: rest
    else (s0, inner) :: setQ rest s a v

/-- The list comprehension
`[self.get_q_value(next_state, a) for a in available_actions]`: the reads run
in order, each one possibly materializing a zero entry. -/
def getQList (t : QTable) (s : String) : List Int → List ℚ × QTable
  | [] => ([], t)
  | a :: rest =>
    let r := get_q_value t s a
    let r2 := getQList r.2 s rest
    (r.1 :: r2.1, r2.2)

/-- Python `max` over a list of values (the argument is nonempty whenever the
source calls it). -/
def pyMax (l : List ℚ) : ℚ :=
  match l with
  | [] => 0
  | v :: rest => rest.foldl max v

/-- Python `QLearningAgent.update_q_value(state, action, reward, next_state,
available_actions)` with the learning rate and discount factor of the agent:
`new_q = current_q + lr * (reward + df * max_next_q - current_q)`, where
`max_next_q` is the max of the next-state values over `available_actions`,
or 0 when that list is empty. -/
def update_q_value (lr df : ℚ) (t : QTable) (state : String) (action : Int)
    (reward : ℚ) (next_state : String) (available_actions : List Int) : QTable :=
  let g := get_q_value t state action
  let current_q := g.1
  let m : ℚ × QTable :=
    if available_actions = [] then (0, g.2)
    else
      let gl := getQList g.2 next_state available_actions
      (pyMax gl.1, gl.2)
  let new_q := current_q + lr * (reward + df * m.1 - current_q)
  setQ m.2 state action new_q

/-- The defaults of `QLearningAgent.__init__(learning_rate=0.1,
discount_factor=0.9, epsilon=0.1)`. -/
def default_learning_rate : ℚ := 1 / 10

/-- Default discount factor of `QLearningAgent.__init__`. -/
def default_discount_factor : ℚ := 9 / 10

/-- Default exploration rate of `QLearningAgent.__init__`. -/
def default_epsilon : ℚ := 1 / 10

/-- The spec-side maximum used to state the update rule: the maximum of the
current values of the next state over the available actions, 0 when there is
no available action. -/
def maxNext (t : QTable) (next_state : String) (avail : List Int) : ℚ :=
  if avail = [] then 0 else pyMax (avail.map (valueOf t next_state))

/-- Python `QLearningAgent.save_q_table`: the file receives
`{state: dict(actions) for state, actions in self.q_table.items()}`, a nested
mapping with exactly the materialized keys of the table — on this model the
very same association structure. -/
def save_q_table (t : QTable) : List (String × List (Int × ℚ)) := t

/-- Outcome of `open(filename)` plus `json.load` in
`QLearningAgent.load_q_table`, abstracting the file system and the JSON
parser: the file may be absent (Python raises FileNotFoundError), present but
not valid JSON (`json.load` raises json.JSONDecodeError), or a well-formed
nested mapping (given here after the `int(action)` key conversion). -/
inductive LoadSrc
  | missing
  | malformed
  | wellFormed (entries : List (String × List (Int × ℚ)))

/-- Result of `QLearningAgent.load_q_table`: either the method returns, with
the resulting table and whether the not-found message was printed, or an
exception escapes it. -/
inductive LoadResult
  | ok (t : QTable) (reportedNotFound : Bool)
  | raised (exn : String)
deriving DecidableEq

/-- The nested `for state ... for action ...` fill loop of `load_q_table`,
starting from the fresh `defaultdict` the method installs. -/
def buildTable (entries : List (String × List (Int × ℚ))) : QTable :=
  entries.foldl (fun t p => p.2.foldl (fun t2 q => setQ t2 p.1 q.1 q.2) t) []

/-- Python `QLearningAgent.load_q_table(filename)`: only FileNotFoundError is
caught (the message about starting with an empty Q-table is printed and the
existing table is left untouched); a JSON decode error propagates out of the
method; a well-formed file replaces the table. -/
def load_q_table (t : QTable) (src : LoadSrc) : LoadResult :=
  match src with
  | .missing => .ok t true
  | .malformed => .raised "JSONDecodeError"
  | .wellFormed entries => .ok (buildTable entries) false

/-- The reward dictionary `rewards = {'X': 1, 'O': -1, 'Tie': 0}` read through
`rewards.get(winner, 0)`. -/
def rewardsGet (w : String) : ℚ :=
  if w = "X" then 1 else if w = "O" then -1 else if w = "Tie" then 0 else 0

/-- The recomputation of the available moves of a recorded next state in
`update_q_learning`: `next_board = list(next_state)` followed by
`[j for j in range(9) if next_board[j] == ' ']`. -/
def availFromKey (next_state : String) : List Int :=
  ((List.range 9).filter (fun j => next_state.data.getD j ' ' == ' ')).map Int.ofNat

/-- Python `TicTacToeAI.update_q_learning(winner)` over the recorded
`self.game_states` (a list of (state key, action, acting player) triples),
updating the X agent table and the O agent table.  For entry i the next
state is entry i+1 (with its empty cells as available actions), or the
entry's own state with no available action for the last entry.  The reward
reproduces the source expression, including its use of
`rewards.get(winner, 0)` on the own-win branch. -/
def update_q_learning (lr df : ℚ) (winner : String) :
    List (String × Int × String) → QTable → QTable → QTable × QTable
  | [], tX, tO => (tX, tO)
  | (state, action, player) :: rest, tX, tO =>
    let reward : ℚ :=
      if player = "X" then
        if winner = "X" then rewardsGet winner
        else if winner = "Tie" then 0 else -1
      else
        if winner = "O" then rewardsGet winner
        else if winner = "Tie" then 0 else -1
    let nsa : String × List Int :=
      match rest with
      | (next, _, _) :: _ => (next, availFromKey next)
      | [] => (state, [])
    if player = "X" then
      update_q_learning lr df winner rest
        (update_q_value lr df tX state action reward nsa.1 nsa.2) tO
    else
      update_q_learning lr df winner rest tX
        (update_q_value lr df tO state action reward nsa.1 nsa.2)

/-- An interaction with one agent table: a bare value read
(`get_q_value`) or a learning update (`update_q_value`). -/
inductive QOp
  | readQ (s : String) (a : Int)
  | updateQ (s : String) (a : Int) (r : ℚ) (ns : String) (avail : List Int)

/-- Running a sequence of reads and updates against a table. -/
def runOps (lr df : ℚ) : QTable → List QOp → QTable
  | t, [] => t
  | t, QOp.readQ s a :: rest => runOps lr df (get_q_value t s a).2 rest
  | t, QOp.updateQ s a r ns avail :: rest =>
      runOps lr df (update_q_value lr df t s a r ns avail) rest

/-- Statement packaging: `check_winner` reported the mark of a player that
fully occupies one of the 8 winning lines. -/
def winnerReported (b : Board) : Prop :=
  ∃ w, check_winner b = some w ∧ (w = "X" ∨ w = "O") ∧
    ∃ t ∈ wins, lineWon b t = true ∧
      cell b t.1 = w ∧ cell b t.2.1 = w ∧ cell b t.2.2 = w

/-- Statement packaging: `get_best_move` for the maximizer returned the first
available move (available moves are listed in ascending cell order) that
attains the maximal search score; every earlier candidate scores strictly
lower, so a tie with the current best never replaces it. -/
def firstMaxChoice (b : Board) : Prop :=
  ∃ k, ∃ hk : k < (get_available_moves b).length,
    get_best_move b "X" = Int.ofNat ((get_available_moves b).get ⟨k, hk⟩) ∧
    (∀ m ∈ get_available_moves b,
      scoreFor b "X" m ≤ scoreFor b "X" ((get_available_moves b).get ⟨k, hk⟩)) ∧
    (∀ j, (hj : j < k) →
      scoreFor b "X" ((get_available_moves b).get ⟨j, Nat.lt_trans hj hk⟩) <
        scoreFor b "X" ((get_available_moves b).get ⟨k, hk⟩))

/-- Statement packaging: the minimizer counterpart of `firstMaxChoice`. -/
def firstMinChoice (b : Board) : Prop :=
  ∃ k, ∃ hk : k < (get_available_moves b).length,
    get_best_move b "O" = Int.ofNat ((get_available_moves b).get ⟨k, hk⟩) ∧
    (∀ m ∈ get_available_moves b,
      scoreFor b "O" ((get_available_moves b).get ⟨k, hk⟩) ≤ scoreFor b "O" m) ∧
    (∀ j, (hj : j < k) →
      scoreFor b "O" ((get_available_moves b).get ⟨k, hk⟩) <
        scoreFor b "O" ((get_available_moves b).get ⟨j, Nat.lt_trans hj hk⟩))

/-- A board every cell of which holds a legal mark. -/
abbrev validMarks (b : Board) : Prop := ∀ c ∈ b, c = " " ∨ c = "X" ∨ c = "O"

/-- Demo board: X just completed the top row. -/
def demoWinBoard : Board := ["X", "X", "X", "O", "O", " ", " ", " ", " "]

/-- Demo board: O completed the top row. -/
def demoOWinBoard : Board := ["O", "O", "O", "X", "X", " ", " ", " ", " "]

/-- Demo board: full, no winning line. -/
def demoTieBoard : Board := ["X", "O", "X", "X", "O", "O", "O", "X", "X"]

/-- Demo board: no winning line and an empty cell: the game continues. -/
def demoOpenBoard : Board := ["X", "O", "X", " ", "O", "O", "O", "X", "X"]

/-- Demo board for the search: three empty cells, X to move can win. -/
def demoSearchBoard : Board := ["X", "O", "X", "O", "X", "O", " ", " ", " "]

/-- Demo board for the defensive strategy: O threatens to complete the top
row at cell 2, X has no immediate win. -/
def demoDefBoard : Board := ["O", "O", " ", " ", "X", " ", " ", "X", " "]

/-- A recorded trajectory of a training game won by O
(X plays 0, O plays 3, X plays 1, O plays 4, X plays 8, O plays 5 and wins
the middle row). -/
def trajOWin : List (String × Int × String) :=
  [("         ", 0, "X"), ("X        ", 3, "O"), ("X  O     ", 1, "X"),
   ("XX O     ", 4, "O"), ("XX OO    ", 8, "X"), ("XX OO   X", 5, "O")]

/-! Helper lemmas. -/

theorem finScore_lt_finScore {a b : Int} : finScore a < finScore b ↔ a < b := by
  simp [finScore, WithBot.coe_lt_coe, WithTop.coe_lt_coe]

theorem negInf_lt_finScore (z : Int) : negInf < finScore z := by
  simp [negInf, finScore]

theorem finScore_lt_posInf (z : Int) : finScore z < posInf := by
  rw [posInf, finScore, WithBot.coe_lt_coe]
  exact WithTop.coe_lt_top z

theorem cell_mem {b : Board} {i : Nat} (h : i < b.length) : cell b i ∈ b := by
  rw [cell, List.getD_eq_getElem b " " h]
  exact List.getElem_mem h

theorem scanWins_none (b : Board) (ts : List (Nat × Nat × Nat))
    (h : ∀ t ∈ ts, ¬ lineWon b t = true) : scanWins b ts = none := by
  induction ts with
  | nil => rfl
  | cons t rest ih =>
    rw [scanWins, if_neg]
    · exact ih fun t2 ht2 => h t2 (List.mem_cons_of_mem _ ht2)
    · simpa using h t (List.mem_cons_self _ _)

theorem scanWins_some (b : Board) (ts : List (Nat × Nat × Nat))
    (h : ∃ t ∈ ts, lineWon b t = true) :
    ∃ w, scanWins b ts = some w ∧ ∃ t ∈ ts, lineWon b t = true ∧ cell b t.1 = w := by
  induction ts with
  | nil => simp at h
  | cons t rest ih =>
    by_cases hw : lineWon b t = true
    · exact ⟨cell b t.1, by rw [scanWins, if_pos hw],
        t, List.mem_cons_self _ _, hw, rfl⟩
    · obtain ⟨t2, ht2, h2⟩ := h
      have ht2r : t2 ∈ rest := by
        rcases List.mem_cons.mp ht2 with h | h
        · exact absurd (h ▸ h2) hw
        · exact h
      obtain ⟨w, hsw, t3, ht3, h3, hc⟩ := ih ⟨t2, ht2r, h2⟩
      exact ⟨w, by rw [scanWins, if_neg (by simpa using hw)]; exact hsw,
        t3, List.mem_cons_of_mem _ ht3, h3, hc⟩

theorem lineWon_elim {b : Board} {t : Nat × Nat × Nat} (h : lineWon b t = true) :
    cell b t.1 = cell b t.2.1 ∧ cell b t.2.1 = cell b t.2.2 ∧ cell b t.2.2 ≠ " " := by
  simpa [lineWon, Bool.and_eq_true, and_assoc] using h

theorem wins_indices : ∀ t ∈ wins, t.1 < 9 ∧ t.2.1 < 9 ∧ t.2.2 < 9 := by decide

/-! Claim theorems. -/

/-- C5: on a nine-cell board of legal marks, `check_winner` reports the mark
of a player occupying a full winning line whenever such a line exists (never
"Tie" in that case); with no won line it returns "Tie" exactly when no empty
cell remains, and `none` exactly when one does. -/
theorem c5_check_winner (b : Board) (hb : b.length = 9) (hv : validMarks b) :
    ((∃ t ∈ wins, lineWon b t = true) →
      winnerReported b ∧ check_winner b ≠ some "Tie") ∧
    ((∀ t ∈ wins, ¬ lineWon b t = true) → " " ∉ b → check_winner b = some "Tie") ∧
    ((∀ t ∈ wins, ¬ lineWon b t = true) → " " ∈ b → check_winner b = none) := by
  refine ⟨fun h => ?_, fun h hsp => ?_, fun h hsp => ?_⟩
  · obtain ⟨w, hsw, t, ht, hwon, hc⟩ := scanWins_some b wins h
    have hcw : check_winner b = some w := by rw [check_winner, hsw]
    obtain ⟨e1, e2, e3⟩ := lineWon_elim hwon
    have hw1 : cell b t.1 ≠ " " := by rw [e1, e2]; exact e3
    have hmem : cell b t.1 ∈ b := cell_mem (by rw [hb]; exact (wins_indices t ht).1)
    have hXO : w = "X" ∨ w = "O" := by
      rcases hv _ hmem with h | h | h
      · exact absurd h hw1
      · exact Or.inl (hc ▸ h)
      · exact Or.inr (hc ▸ h)
    refine ⟨⟨w, hcw, hXO, t, ht, hwon, hc, by rw [← hc, e1], by rw [← hc, e1, e2]⟩, ?_⟩
    rw [hcw]
    rcases hXO with h | h <;> simp [h]
  · rw [check_winner, scanWins_none b wins h, if_neg hsp]
  · rw [check_winner, scanWins_none b wins h, if_pos hsp]

/-- C5 witness: a won board, a full tied board and a still-open board. -/
theorem c5_witness :
    (winnerReported demoWinBoard ∧ check_winner demoWinBoard ≠ some "Tie") ∧
    check_winner demoTieBoard = some "Tie" ∧ check_winner demoOpenBoard = none :=
  ⟨(c5_check_winner demoWinBoard (by decide) (by decide)).1 (by decide),
   (c5_check_winner demoTieBoard (by decide) (by decide)).2.1 (by decide) (by decide),
   (c5_check_winner demoOpenBoard (by decide) (by decide)).2.2 (by decide) (by decide)⟩

/-- C3: the search scores a terminal node `10 - depth` when X has won,
`depth - 10` when O has won, and 0 on a tie, so on the same terminal board a
smaller depth gives a strictly higher X-win score and a strictly lower
O-win score. -/
theorem c3_terminal_scores (b : Board) (d : Nat) (mx : Bool) (alpha beta : Score) :
    (check_winner b = some "X" → minimax b d mx alpha beta = finScore (10 - (d : Int))) ∧
    (check_winner b = some "O" → minimax b d mx alpha beta = finScore ((d : Int) - 10)) ∧
    (check_winner b = some "Tie" → minimax b d mx alpha beta = finScore 0) ∧
    (∀ d2 : Nat, d < d2 → check_winner b = some "X" →
      minimax b d2 mx alpha beta < minimax b d mx alpha beta) ∧
    (∀ d2 : Nat, d < d2 → check_winner b = some "O" →
      minimax b d mx alpha beta < minimax b d2 mx alpha beta) := by
  have hX : ∀ d : Nat, check_winner b = some "X" →
      minimax b d mx alpha beta = finScore (10 - (d : Int)) := by
    intro d h
    rw [minimax, minimaxF.eq_def]
    simp [h]
  have hO : ∀ d : Nat, check_winner b = some "O" →
      minimax b d mx alpha beta = finScore ((d : Int) - 10) := by
    intro d h
    rw [minimax, minimaxF.eq_def]
    simp [h]
  have hT : check_winner b = some "Tie" → minimax b d mx alpha beta = finScore 0 := by
    intro h
    rw [minimax, minimaxF.eq_def]
    simp [h]
  refine ⟨hX d, hO d, hT, fun d2 hlt h => ?_, fun d2 hlt h => ?_⟩
  · rw [hX d h, hX d2 h, finScore_lt_finScore]
    omega
  · rw [hO d h, hO d2 h, finScore_lt_finScore]
    omega

/-- C3 witness: terminal boards evaluated at concrete depths. -/
theorem c3_witness :
    minimax demoWinBoard 2 true negInf posInf = finScore (10 - ((2 : Nat) : Int)) ∧
    minimax demoOWinBoard 3 false negInf posInf = finScore (((3 : Nat) : Int) - 10) ∧
    minimax demoTieBoard 0 true negInf posInf = finScore 0 ∧
    minimax demoWinBoard 5 true negInf posInf < minimax demoWinBoard 2 true negInf posInf ∧
    minimax demoOWinBoard 3 false negInf posInf < minimax demoOWinBoard 7 false negInf posInf :=
  ⟨(c3_terminal_scores demoWinBoard 2 true negInf posInf).1 (by decide),
   (c3_terminal_scores demoOWinBoard 3 false negInf posInf).2.1 (by decide),
   (c3_terminal_scores demoTieBoard 0 true negInf posInf).2.2.1 (by decide),
   (c3_terminal_scores demoWinBoard 2 true negInf posInf).2.2.2.1 5 (by decide) (by decide),
   (c3_terminal_scores demoOWinBoard 3 false negInf posInf).2.2.2.2 7 (by decide) (by decide)⟩

/-- C2 counterexample: when a strategy hands the orchestrator an illegal move
(cell 0 is already occupied), the game-loop step does not fail: the board is
left unchanged, the boolean from `make_move` is dropped, and play continues
with the other player — the illegal move is silently tolerated. -/
theorem c2_counterexample :
    stepGame ["X", " ", " ", " ", " ", " ", " ", " ", " "] "O" 0 =
      StepOutcome.continuing ["X", " ", " ", " ", " ", " ", " ", " ", " "] "X" ∧
    make_move ["X", " ", " ", " ", " ", " ", " ", " ", " "] 0 "O" =
      (false, ["X", " ", " ", " ", " ", " ", " ", " ", " "]) := by
  exact ⟨rfl, by decide⟩

/-- C2 amended: `make_move` does reject an illegal move (returns False and
leaves the board untouched), but `play_self_game` discards that result, so an
illegal strategy move is silently skipped and the turn simply passes to the
other player; nothing fails fast. -/
theorem c2_amended (b : Board) (player : String) (move : Int)
    (h : is_valid_move b move = false) :
    make_move b move player = (false, b) ∧
    (check_winner b = none →
      stepGame b player move =
        StepOutcome.continuing b (if player = "X" then "O" else "X")) := by
  have hm : make_move b move player = (false, b) := by rw [make_move, h]; rfl
  refine ⟨hm, fun hw => ?_⟩
  rw [stepGame, hm]
  simp [hw]

/-- C2 witness for the amended statement. -/
theorem c2_amended_witness :
    is_valid_move ["X", " ", " ", " ", " ", " ", " ", " ", " "] 0 = false ∧
    make_move ["X", " ", " ", " ", " ", " ", " ", " ", " "] 0 "O" =
      (false, ["X", " ", " ", " ", " ", " ", " ", " ", " "]) ∧
    stepGame ["X", " ", " ", " ", " ", " ", " ", " ", " "] "O" 0 =
      StepOutcome.continuing ["X", " ", " ", " ", " ", " ", " ", " ", " "] "X" := by
  refine ⟨by decide, (c2_amended _ "O" 0 (by decide)).1, ?_⟩
  have h := (c2_amended ["X", " ", " ", " ", " ", " ", " ", " ", " "] "O" 0
    (by decide)).2 (by decide)
  simpa using h

/-- C10: on a nine-cell board with no empty cell, `get_best_move` returns -1,
`is_valid_move` rejects -1, and there are no available moves at all. -/
theorem c10_full_board (b : Board) (hb : b.length = 9) (hfull : " " ∉ b)
    (player : String) :
    get_best_move b player = -1 ∧ is_valid_move b (-1) = false ∧
    get_available_moves b = [] := by
  have hav : get_available_moves b = [] := by
    rw [get_available_moves, List.filter_eq_nil]
    intro i hi
    have hi9 : i < b.length := by rw [hb]; exact List.mem_range.mp hi
    intro hc
    exact hfull ((eq_of_beq hc) ▸ cell_mem hi9)
  refine ⟨?_, ?_, hav⟩
  · rw [get_best_move, hav, bestLoop]
  · rw [is_valid_move]
    norm_num

/-- C10 witness: a concrete full board. -/
theorem c10_witness :
    get_best_move demoTieBoard "X" = -1 ∧ is_valid_move demoTieBoard (-1) = false ∧
    get_available_moves demoTieBoard = [] :=
  c10_full_board demoTieBoard (by decide) (by decide) "X"

/-- C8 counterexample: loading from a malformed source does crash — only
FileNotFoundError is caught, so the JSON decode error escapes
`load_q_table`; and on a missing file the current table is kept as is (a
non-empty table is not replaced by an empty one). -/
theorem c8_counterexample :
    load_q_table [] LoadSrc.malformed = LoadResult.raised "JSONDecodeError" ∧
    load_q_table [("s", [(0, 2)])] LoadSrc.missing
      = LoadResult.ok [("s", [(0, 2)])] true :=
  ⟨rfl, rfl⟩

/-- C8 amended: only a missing file is handled without crashing: the
not-found condition is reported and the agent keeps its current table (the
empty table when the agent is fresh); a malformed file raises an uncaught
decode error. -/
theorem c8_amended (t : QTable) :
    load_q_table t LoadSrc.missing = LoadResult.ok t true ∧
    load_q_table [] LoadSrc.missing = LoadResult.ok [] true ∧
    load_q_table t LoadSrc.malformed = LoadResult.raised "JSONDecodeError" :=
  ⟨rfl, rfl, rfl⟩

theorem findWinningMove_none (b : Board) (mark : String) (l : List Nat)
    (h : ∀ m ∈ l, ¬ winsFor b mark m) : findWinningMove b mark l = none := by
  induction l with
  | nil => rfl
  | cons m rest ih =>
    rw [findWinningMove, if_neg (h m (List.mem_cons_self _ _))]
    exact ih fun m2 hm2 => h m2 (List.mem_cons_of_mem _ hm2)

theorem findWinningMove_some (b : Board) (mark : String) (l : List Nat)
    (h : ∃ m ∈ l, winsFor b mark m) :
    ∃ m ∈ l, winsFor b mark m ∧ findWinningMove b mark l = some m := by
  induction l with
  | nil => simp at h
  | cons m rest ih =>
    by_cases hw : winsFor b mark m
    · exact ⟨m, List.mem_cons_self _ _, hw, by rw [findWinningMove, if_pos hw]⟩
    · obtain ⟨m2, hm2, h2⟩ := h
      have hm2r : m2 ∈ rest := by
        rcases List.mem_cons.mp hm2 with h3 | h3
        · exact absurd (h3 ▸ h2) hw
        · exact h3
      obtain ⟨m3, hm3, h3, hf⟩ := ih ⟨m2, hm2r, h2⟩
      exact ⟨m3, List.mem_cons_of_mem _ hm3, h3,
        by rw [findWinningMove, if_neg hw]; exact hf⟩

/-- C7: the defensive strategy checks blocking before anything else: whenever
the opponent has an immediate winning move among the available cells, the
returned move is such a blocking cell (regardless of the random oracle and of
any own winning move); and when the opponent has exactly one immediate
winning move and the acting player has none, exactly that cell is returned. -/
theorem c7_defensive (b : Board) (player : String) (pick : List Nat → Nat) :
    ((∃ m ∈ get_available_moves b, winsFor b (opponentOf player) m) →
      ∃ m ∈ get_available_moves b, winsFor b (opponentOf player) m ∧
        get_defensive_move b player pick = m) ∧
    (∀ m, (get_available_moves b).filter
        (fun mv => decide (winsFor b (opponentOf player) mv)) = [m] →
      (∀ mv ∈ get_available_moves b, ¬ winsFor b player mv) →
      get_defensive_move b player pick = m) := by
  constructor
  · intro h
    obtain ⟨m, hm, hw, hf⟩ := findWinningMove_some b (opponentOf player) _ h
    exact ⟨m, hm, hw, by rw [get_defensive_move, hf]⟩
  · intro m hfilter _
    have hm : m ∈ (get_available_moves b).filter
        (fun mv => decide (winsFor b (opponentOf player) mv)) := by
      rw [hfilter]; exact List.mem_cons_self _ _
    obtain ⟨hmav, hmw⟩ := List.mem_filter.mp hm
    obtain ⟨m2, hm2, hw2, hf⟩ := findWinningMove_some b (opponentOf player) _
      ⟨m, hmav, of_decide_eq_true hmw⟩
    have : m2 ∈ (get_available_moves b).filter
        (fun mv => decide (winsFor b (opponentOf player) mv)) :=
      List.mem_filter.mpr ⟨hm2, decide_eq_true hw2⟩
    rw [hfilter] at this
    have hm2m : m2 = m := by simpa using this
    rw [get_defensive_move, hf, hm2m]

/-- C7 witness: O threatens cell 2 on `demoDefBoard` and X has no immediate
win; the defensive move is exactly the block at cell 2. -/
theorem c7_witness :
    get_defensive_move demoDefBoard "X" (fun l => l.headD 99) = 2 :=
  (c7_defensive demoDefBoard "X" (fun l => l.headD 99)).2 2 (by decide) (by decide)

theorem pairEntry_nil (s : String) (a : Int) : pairEntry [] s a = none := rfl

theorem pairEntry_cons (s0 : String) (inner : List (Int × ℚ)) (rest : QTable)
    (s : String) (a : Int) :
    pairEntry ((s0, inner) :: rest) s a =
      if s0 = s then innerLookup inner a else pairEntry rest s a := by
  by_cases h : s0 = s <;> simp [pairEntry, outerLookup, h]

theorem valueOf_eq_pairEntry (t : QTable) (s : String) (a : Int) :
    valueOf t s a = (pairEntry t s a).getD 0 := rfl

theorem innerLookup_append_single (inner : List (Int × ℚ)) (a : Int) (v : ℚ)
    (a2 : Int) :
    innerLookup (inner ++ [(a, v)]) a2 =
      orDefault (innerLookup inner a2) (if a = a2 then some v else none) := by
  induction inner with
  | nil => simp [innerLookup, orDefault]
  | cons p rest ih =>
    obtain ⟨a0, v0⟩ := p
    by_cases h : a0 = a2 <;> simp [innerLookup, h, ih, orDefault]

theorem get_q_value_fst (t : QTable) (s : String) (a : Int) :
    (get_q_value t s a).1 = valueOf t s a := by
  induction t with
  | nil => rfl
  | cons p rest ih =>
    obtain ⟨s0, inner⟩ := p
    rw [get_q_value]
    by_cases hs : s0 = s
    · cases hl : innerLookup inner a <;>
        simp [hs, hl, valueOf, pairEntry, outerLookup]
    · simp [hs, valueOf_eq_pairEntry, pairEntry_cons, ih]

theorem get_q_value_pairEntry (t : QTable) (s : String) (a : Int)
    (s2 : String) (a2 : Int) :
    pairEntry (get_q_value t s a).2 s2 a2 =
      orDefault (pairEntry t s2 a2)
        (if s = s2 ∧ a = a2 then some 0 else none) := by
  induction t with
  | nil =>
    rw [show (get_q_value [] s a).2 = [(s, [(a, 0)])] from rfl,
      pairEntry_cons, pairEntry_nil]
    by_cases hs : s = s2
    · subst hs
      by_cases ha : a = a2 <;> simp [innerLookup, ha, orDefault]
    · simp [hs, orDefault]
  | cons p rest ih =>
    obtain ⟨s0, inner⟩ := p
    by_cases hs : s0 = s
    · subst hs
      cases hl : innerLookup inner a with
      | none =>
        have h2 : (get_q_value ((s0, inner) :: rest) s0 a).2
            = (s0, inner ++ [(a, 0)]) :: rest := by
          rw [get_q_value]; simp [hl]
        rw [h2, pairEntry_cons, pairEntry_cons]
        by_cases hs2 : s0 = s2
        · subst hs2
          simp [innerLookup_append_single]
        · simp only [if_neg hs2]
          rw [if_neg (fun hh => hs2 hh.1)]
          cases pairEntry rest s2 a2 <;> simp [orDefault]
      | some v =>
        have h2 : (get_q_value ((s0, inner) :: rest) s0 a).2
            = (s0, inner) :: rest := by
          rw [get_q_value]; simp [hl]
        rw [h2, pairEntry_cons]
        by_cases hs2 : s0 = s2
        · subst hs2
          simp only [if_pos rfl]
          by_cases ha : a = a2
          · subst ha
            rw [hl]
            simp [orDefault]
          · cases innerLookup inner a2 <;> simp [orDefault, ha]
        · simp only [if_neg hs2]
          rw [if_neg (fun hh => hs2 hh.1)]
          cases pairEntry rest s2 a2 <;> simp [orDefault]
    · have h2 : (get_q_value ((s0, inner) :: rest) s a).2
          = (s0, inner) :: (get_q_value rest s a).2 := by
        rw [get_q_value]; simp [hs]
      rw [h2, pairEntry_cons, pairEntry_cons]
      by_cases hs2 : s0 = s2
      · rw [if_pos hs2, if_pos hs2,
          if_neg (show ¬(s = s2 ∧ a = a2) from fun hh => hs (hs2.trans hh.1.symm))]
        cases innerLookup inner a2 <;> simp [orDefault]
      · rw [if_neg hs2, if_neg hs2]
        exact ih

theorem get_q_value_snd_valueOf (t : QTable) (s : String) (a : Int)
    (s2 : String) (a2 : Int) :
    valueOf (get_q_value t s a).2 s2 a2 = valueOf t s2 a2 := by
  rw [valueOf_eq_pairEntry, valueOf_eq_pairEntry, get_q_value_pairEntry]
  cases pairEntry t s2 a2 <;> simp [orDefault] <;> split <;> simp

theorem get_q_value_materializes (t : QTable) (s : String) (a : Int) :
    pairEntry (get_q_value t s a).2 s a = some (valueOf t s a) := by
  rw [get_q_value_pairEntry, valueOf_eq_pairEntry]
  cases pairEntry t s a <;> simp [orDefault]

theorem containsPair_get_mono (t : QTable) (s a s2 a2)
    (h : containsPair t s2 a2 = true) :
    containsPair (get_q_value t s a).2 s2 a2 = true := by
  rw [containsPair, get_q_value_pairEntry]
  rw [containsPair] at h
  cases hp : pairEntry t s2 a2
  · rw [hp] at h; simp at h
  · simp [orDefault]

theorem setInner_lookup (inner : List (Int × ℚ)) (a : Int) (v : ℚ) (a2 : Int) :
    innerLookup (setInner inner a v) a2 =
      if a = a2 then some v else innerLookup inner a2 := by
  induction inner with
  | nil => simp [setInner, innerLookup]
  | cons p rest ih =>
    obtain ⟨a0, v0⟩ := p
    by_cases h : a0 = a
    · subst h
      by_cases h2 : a0 = a2 <;> simp [setInner, innerLookup, h2]
    · by_cases h2 : a0 = a2
      · subst h2
        have ha : ¬ a = a0 := fun hh => h hh.symm
        simp [setInner, innerLookup, h, ha]
      · simp [setInner, innerLookup, h, h2, ih]

theorem setQ_pairEntry (t : QTable) (s : String) (a : Int) (v : ℚ)
    (s2 : String) (a2 : Int) :
    pairEntry (setQ t s a v) s2 a2 =
      if s = s2 ∧ a = a2 then some v else pairEntry t s2 a2 := by
  induction t with
  | nil =>
    rw [show setQ [] s a v = [(s, [(a, v)])] from rfl, pairEntry_cons, pairEntry_nil]
    by_cases hs : s = s2
    · subst hs
      by_cases ha : a = a2 <;> simp [innerLookup, ha]
    · rw [if_neg hs, if_neg (fun hh => hs hh.1)]
  | cons p rest ih =>
    obtain ⟨s0, inner⟩ := p
    by_cases hs : s0 = s
    · subst hs
      have h2 : setQ ((s0, inner) :: rest) s0 a v = (s0, setInner inner a v) :: rest := by
        rw [setQ]; simp
      rw [h2, pairEntry_cons, pairEntry_cons]
      by_cases hs2 : s0 = s2
      · rw [if_pos hs2, if_pos hs2, setInner_lookup]
        by_cases ha : a = a2
        · rw [if_pos ha, if_pos (⟨hs2, ha⟩ : s0 = s2 ∧ a = a2)]
        · rw [if_neg ha, if_neg (fun hh => ha hh.2)]
      · rw [if_neg hs2, if_neg hs2, if_neg (fun hh => hs2 hh.1)]
    · have h2 : setQ ((s0, inner) :: rest) s a v = (s0, inner) :: setQ rest s a v := by
        rw [setQ]; simp [hs]
      rw [h2, pairEntry_cons, pairEntry_cons]
      by_cases hs2 : s0 = s2
      · rw [if_pos hs2, if_pos hs2,
          if_neg (show ¬(s = s2 ∧ a = a2) from fun hh => hs (hs2.trans hh.1.symm))]
      · rw [if_neg hs2, if_neg hs2, ih]

theorem setQ_valueOf_self (t : QTable) (s : String) (a : Int) (v : ℚ) :
    valueOf (setQ t s a v) s a = v := by
  rw [valueOf_eq_pairEntry, setQ_pairEntry]
  simp

theorem getQList_fst (t : QTable) (s : String) (acts : List Int) :
    (getQList t s acts).1 = acts.map (valueOf t s) := by
  induction acts generalizing t with
  | nil => rfl
  | cons a rest ih =>
    simp only [getQList, List.map_cons]
    rw [get_q_value_fst, ih]
    congr 1
    exact List.map_congr_left fun x _ => get_q_value_snd_valueOf t s a s x

theorem getQList_snd_valueOf (t : QTable) (s : String) (acts : List Int)
    (s2 : String) (a2 : Int) :
    valueOf (getQList t s acts).2 s2 a2 = valueOf t s2 a2 := by
  induction acts generalizing t with
  | nil => rfl
  | cons a rest ih =>
    simp only [getQList]
    rw [ih, get_q_value_snd_valueOf]

theorem getQList_containsPair_mono (t : QTable) (s : String) (acts : List Int)
    (s2 : String) (a2 : Int) (h : containsPair t s2 a2 = true) :
    containsPair (getQList t s acts).2 s2 a2 = true := by
  induction acts generalizing t with
  | nil => exact h
  | cons a rest ih =>
    simp only [getQList]
    exact ih _ (containsPair_get_mono t s a s2 a2 h)

theorem foldl_max_init_le (l : List ℚ) (a : ℚ) : a ≤ l.foldl max a := by
  induction l generalizing a with
  | nil => exact le_refl a
  | cons b rest ih => exact le_trans (le_max_left a b) (ih (max a b))

theorem foldl_max_le_mem (l : List ℚ) (a : ℚ) : ∀ v ∈ l, v ≤ l.foldl max a := by
  induction l generalizing a with
  | nil => intro v hv; simp at hv
  | cons b rest ih =>
    intro v hv
    rw [List.foldl_cons]
    rcases List.mem_cons.mp hv with h | h
    · subst h
      exact le_trans (le_max_right a v) (foldl_max_init_le rest (max a v))
    · exact ih (max a b) v h

theorem foldl_max_mem (l : List ℚ) (a : ℚ) :
    l.foldl max a = a ∨ l.foldl max a ∈ l := by
  induction l generalizing a with
  | nil => exact Or.inl rfl
  | cons b rest ih =>
    rcases ih (max a b) with h | h
    · rcases max_choice a b with h2 | h2
      · exact Or.inl (by rw [List.foldl_cons, h, h2])
      · exact Or.inr (by rw [List.foldl_cons, h, h2]; exact List.mem_cons_self _ _)
    · exact Or.inr (List.mem_cons_of_mem _ (by rw [List.foldl_cons]; exact h))

theorem pyMax_mem (l : List ℚ) (h : l ≠ []) : pyMax l ∈ l := by
  match l with
  | [] => exact absurd rfl h
  | v :: rest =>
    rw [pyMax]
    rcases foldl_max_mem rest v with h2 | h2
    · rw [h2]; exact List.mem_cons_self _ _
    · exact List.mem_cons_of_mem _ h2

theorem le_pyMax (l : List ℚ) : ∀ v ∈ l, v ≤ pyMax l := by
  match l with
  | [] => intro v hv; simp at hv
  | w :: rest =>
    intro v hv
    rw [pyMax]
    rcases List.mem_cons.mp hv with h | h
    · exact h ▸ foldl_max_init_le rest w
    · exact foldl_max_le_mem rest w v h

theorem setQ_containsPair_mono (t : QTable) (s : String) (a : Int) (v : ℚ)
    (s2 : String) (a2 : Int) (h : containsPair t s2 a2 = true) :
    containsPair (setQ t s a v) s2 a2 = true := by
  rw [containsPair, setQ_pairEntry]
  by_cases hc : s = s2 ∧ a = a2
  · rw [if_pos hc]; rfl
  · rw [if_neg hc]; exact h

theorem update_q_value_containsPair_mono (lr df : ℚ) (t : QTable) (s : String)
    (a : Int) (r : ℚ) (ns : String) (avail : List Int) (s2 : String) (a2 : Int)
    (h : containsPair t s2 a2 = true) :
    containsPair (update_q_value lr df t s a r ns avail) s2 a2 = true := by
  simp only [update_q_value]
  by_cases hav : avail = []
  · simp only [if_pos hav]
    exact setQ_containsPair_mono _ _ _ _ _ _ (containsPair_get_mono t s a s2 a2 h)
  · simp only [if_neg hav]
    exact setQ_containsPair_mono _ _ _ _ _ _
      (getQList_containsPair_mono _ ns avail s2 a2 (containsPair_get_mono t s a s2 a2 h))

theorem runOps_append (lr df : ℚ) (t : QTable) (l1 l2 : List QOp) :
    runOps lr df t (l1 ++ l2) = runOps lr df (runOps lr df t l1) l2 := by
  induction l1 generalizing t with
  | nil => rfl
  | cons op rest ih =>
    cases op <;> simp only [List.cons_append, runOps] <;> exact ih _

theorem runOps_containsPair_mono (lr df : ℚ) (t : QTable) (ops : List QOp)
    (s : String) (a : Int) (h : containsPair t s a = true) :
    containsPair (runOps lr df t ops) s a = true := by
  induction ops generalizing t with
  | nil => exact h
  | cons op rest ih =>
    cases op with
    | readQ s2 a2 =>
      rw [runOps]
      exact ih _ (containsPair_get_mono t s2 a2 s a h)
    | updateQ s2 a2 r ns avail =>
      rw [runOps]
      exact ih _ (update_q_value_containsPair_mono lr df t s2 a2 r ns avail s a h)

theorem maxNext_nil (t : QTable) (ns : String) : maxNext t ns [] = 0 := by
  rw [maxNext, if_pos rfl]

theorem update_q_value_valueOf_eq (lr df : ℚ) (t : QTable) (s : String) (a : Int)
    (r : ℚ) (ns : String) (avail : List Int) :
    valueOf (update_q_value lr df t s a r ns avail) s a =
      valueOf t s a + lr * (r + df * maxNext t ns avail - valueOf t s a) := by
  simp only [update_q_value]
  by_cases h : avail = []
  · simp only [if_pos h]
    rw [setQ_valueOf_self, get_q_value_fst, maxNext, if_pos h]
  · simp only [if_neg h]
    rw [setQ_valueOf_self, get_q_value_fst, getQList_fst]
    have hmap : avail.map (valueOf (get_q_value t s a).2 ns)
        = avail.map (valueOf t ns) :=
      List.map_congr_left fun x _ => get_q_value_snd_valueOf t s a ns x
    rw [hmap, maxNext, if_neg h]

theorem update_q_value_valueOf_other (lr df : ℚ) (t : QTable) (s : String)
    (a : Int) (r : ℚ) (ns : String) (avail : List Int) (s2 : String) (a2 : Int)
    (h : ¬(s = s2 ∧ a = a2)) :
    valueOf (update_q_value lr df t s a r ns avail) s2 a2 = valueOf t s2 a2 := by
  simp only [update_q_value]
  by_cases hav : avail = []
  · simp only [if_pos hav]
    rw [valueOf_eq_pairEntry, setQ_pairEntry, if_neg h, ← valueOf_eq_pairEntry,
      get_q_value_snd_valueOf]
  · simp only [if_neg hav]
    rw [valueOf_eq_pairEntry, setQ_pairEntry, if_neg h, ← valueOf_eq_pairEntry,
      getQList_snd_valueOf, get_q_value_snd_valueOf]

/-- C6: `update_q_value` stores exactly
`Q(s,a) + lr * (reward + df * max_next_q - Q(s,a))` under (state, action),
where `max_next_q` is the maximum current value of the next state over the
available actions and 0 when none are available; the agent defaults are
learning rate 0.1 and discount factor 0.9. -/
theorem c6_update_rule (lr df : ℚ) (t : QTable) (s : String) (a : Int) (r : ℚ)
    (ns : String) (avail : List Int) :
    valueOf (update_q_value lr df t s a r ns avail) s a =
      valueOf t s a + lr * (r + df * maxNext t ns avail - valueOf t s a) ∧
    (avail = [] → maxNext t ns avail = 0) ∧
    (avail ≠ [] → maxNext t ns avail ∈ avail.map (valueOf t ns) ∧
      ∀ v ∈ avail.map (valueOf t ns), v ≤ maxNext t ns avail) ∧
    default_learning_rate = 1 / 10 ∧ default_discount_factor = 9 / 10 := by
  refine ⟨update_q_value_valueOf_eq lr df t s a r ns avail,
    fun h => by rw [maxNext, if_pos h], fun h => ?_, rfl, rfl⟩
  rw [maxNext, if_neg h]
  have hne : avail.map (valueOf t ns) ≠ [] := by simpa using h
  exact ⟨pyMax_mem _ hne, le_pyMax _⟩

/-- C6 witness: a concrete update on a one-entry table. -/
theorem c6_witness :
    valueOf (update_q_value (1 / 10) (9 / 10) [("s", [(0, 2)])] "s" 0 1 "s" [0]) "s" 0 =
      valueOf [("s", [(0, 2)])] "s" 0 +
        (1 / 10) * (1 + (9 / 10) * maxNext [("s", [(0, 2)])] "s" [0] -
          valueOf [("s", [(0, 2)])] "s" 0) ∧
    maxNext [("s", [(0, 2)])] "s" [0] ∈
      ([0] : List Int).map (valueOf [("s", [(0, 2)])] "s") :=
  ⟨(c6_update_rule (1 / 10) (9 / 10) [("s", [(0, 2)])] "s" 0 1 "s" [0]).1,
   ((c6_update_rule (1 / 10) (9 / 10) [("s", [(0, 2)])] "s" 0 1 "s" [0]).2.2.1
     (by decide)).1⟩

/-- C9: a bare read of a never-written pair returns 0 but also materializes an
explicit 0 entry, and after any sequence of reads and updates containing a
read of (s, a), the serialized table written by `save_q_table` contains the
pair (s, a) — lookup is not read-only with respect to serialization. -/
theorem c9_read_materializes (lr df : ℚ) (t : QTable) (pre post : List QOp)
    (s : String) (a : Int) :
    (containsPair t s a = false →
      (get_q_value t s a).1 = 0 ∧ pairEntry (get_q_value t s a).2 s a = some 0) ∧
    containsPair (save_q_table (runOps lr df t (pre ++ QOp.readQ s a :: post))) s a
      = true := by
  constructor
  · intro h
    have hv : valueOf t s a = 0 := by
      rw [valueOf_eq_pairEntry]
      rw [containsPair] at h
      cases hp : pairEntry t s a
      · rfl
      · rw [hp] at h; simp at h
    exact ⟨by rw [get_q_value_fst, hv], by rw [get_q_value_materializes, hv]⟩
  · rw [save_q_table, runOps_append, runOps]
    refine runOps_containsPair_mono lr df _ post s a ?_
    rw [containsPair, get_q_value_materializes]
    rfl

/-- C9 witness: reading a fresh pair from the empty table, then running an
unrelated update, still leaves the queried pair in the serialized table. -/
theorem c9_witness :
    ((get_q_value ([] : QTable) "q" 5).1 = 0 ∧
      pairEntry (get_q_value ([] : QTable) "q" 5).2 "q" 5 = some 0) ∧
    containsPair (save_q_table (runOps (1 / 10) (9 / 10) ([] : QTable)
      ([] ++ QOp.readQ "q" 5 :: [QOp.updateQ "u" 1 1 "u" []]))) "q" 5 = true :=
  ⟨(c9_read_materializes (1 / 10) (9 / 10) [] [] [QOp.updateQ "u" 1 1 "u" []]
      "q" 5).1 (by decide),
   (c9_read_materializes (1 / 10) (9 / 10) [] [] [QOp.updateQ "u" 1 1 "u" []]
      "q" 5).2⟩

/-- C1 (code bug): on the recorded trajectory of a training game won by O,
the end-of-episode update hands the winning O entries the reward
`rewards['O'] = -1` rather than +1.  Concretely, starting from empty tables,
the final O entry ("XX OO   X", 5) — a terminal transition with empty next
actions, so its new value is `0 + 0.1 * reward` — ends at -1/10, whereas the
claimed +1 reward for the winner would give +1/10. -/
theorem c1_reward_bug :
    valueOf ((update_q_learning (1 / 10) (9 / 10) "O" trajOWin [] []).2)
      "XX OO   X" 5 = -(1 / 10) ∧
    -(1 / 10 : ℚ) ≠ 1 / 10 := by
  refine ⟨?_, by norm_num⟩
  simp [trajOWin, update_q_learning, rewardsGet]
  rw [update_q_value_valueOf_eq, maxNext_nil,
    update_q_value_valueOf_other _ _ _ _ _ _ _ _ _ _ (by decide),
    update_q_value_valueOf_other _ _ _ _ _ _ _ _ _ _ (by decide)]
  norm_num [valueOf, pairEntry, outerLookup]

theorem scanWins_some_inv (b : Board) (ts : List (Nat × Nat × Nat)) (w : String)
    (h : scanWins b ts = some w) :
    ∃ t ∈ ts, lineWon b t = true ∧ cell b t.1 = w := by
  induction ts with
  | nil => simp [scanWins] at h
  | cons t rest ih =>
    by_cases hw : lineWon b t = true
    · rw [scanWins, if_pos hw] at h
      exact ⟨t, List.mem_cons_self _ _, hw, Option.some_injective _ h⟩
    · rw [scanWins, if_neg (by simpa using hw)] at h
      obtain ⟨t2, ht2, h2, hc⟩ := ih h
      exact ⟨t2, List.mem_cons_of_mem _ ht2, h2, hc⟩

theorem avail_ne_nil_of_space {b : Board} (hb : b.length = 9) (hs : " " ∈ b) :
    get_available_moves b ≠ [] := by
  obtain ⟨i, hlt, hget⟩ := List.mem_iff_getElem.mp hs
  intro hnil
  have hcell : cell b i = " " := by
    rw [cell, List.getD_eq_getElem b " " hlt]
    exact hget
  have hmem : i ∈ get_available_moves b :=
    List.mem_filter.mpr ⟨List.mem_range.mpr (by omega), by simp [hcell]⟩
  rw [hnil] at hmem
  exact absurd hmem (List.not_mem_nil i)

theorem check_winner_else_space {b : Board} (hv : validMarks b) (hb : b.length = 9)
    (h1 : ¬ check_winner b = some "X") (h2 : ¬ check_winner b = some "O")
    (h3 : ¬ check_winner b = some "Tie") :
    " " ∈ b ∧ get_available_moves b ≠ [] := by
  cases hs : scanWins b wins with
  | some w =>
    have hcw : check_winner b = some w := by rw [check_winner, hs]
    obtain ⟨t, ht, hwon, hc⟩ := scanWins_some_inv b wins w hs
    obtain ⟨e1, e2, e3⟩ := lineWon_elim hwon
    have hw1 : cell b t.1 ≠ " " := by rw [e1, e2]; exact e3
    have hmem : cell b t.1 ∈ b := cell_mem (by rw [hb]; exact (wins_indices t ht).1)
    rcases hv _ hmem with h | h | h
    · exact absurd h hw1
    · exact absurd (hc ▸ hcw) (h ▸ h1)
    · exact absurd (hc ▸ hcw) (h ▸ h2)
  | none =>
    by_cases hsp : " " ∈ b
    · exact ⟨hsp, avail_ne_nil_of_space hb hsp⟩
    · exact absurd (by rw [check_winner, hs, if_neg hsp]) h3

theorem mem_set_marks {b : Board} {i : Nat} {v c : String} (h : c ∈ b.set i v) :
    c = v ∨ c ∈ b := by
  induction b generalizing i with
  | nil => simp at h
  | cons x rest ih =>
    cases i with
    | zero =>
      rcases List.mem_cons.mp h with h2 | h2
      · exact Or.inl h2
      · exact Or.inr (List.mem_cons_of_mem _ h2)
    | succ n =>
      rcases List.mem_cons.mp h with h2 | h2
      · exact Or.inr (h2 ▸ List.mem_cons_self _ _)
      · rcases ih h2 with h3 | h3
        · exact Or.inl h3
        · exact Or.inr (List.mem_cons_of_mem _ h3)

theorem validMarks_set {b : Board} (hv : validMarks b) (i : Nat) {v : String}
    (hvv : v = " " ∨ v = "X" ∨ v = "O") : validMarks (b.set i v) := by
  intro c hc
  rcases mem_set_marks hc with h | h
  · exact h ▸ hvv
  · exact hv c h

theorem maxLoop_bounds (f : Nat) (b : Board) (d : Nat) (moves : List Nat) :
    ∀ (acc al be : Score),
      (∀ m ∈ moves, ∀ (al2 be2 : Score),
        negInf < minimaxF f (b.set m "X") (d + 1) false al2 be2 ∧
        minimaxF f (b.set m "X") (d + 1) false al2 be2 < posInf) →
      ((negInf < acc ∧ acc < posInf) ∨ (acc = negInf ∧ moves ≠ [])) →
      negInf < maxLoop f b d moves acc al be ∧
        maxLoop f b d moves acc al be < posInf := by
  induction moves with
  | nil =>
    intro acc al be _ hacc
    rcases hacc with h | h
    · rw [maxLoop]; exact h
    · exact absurd rfl h.2
  | cons m rest ih =>
    intro acc al be hch hacc
    have hs := hch m (List.mem_cons_self _ _) al be
    have hacc2 : negInf < max acc (minimaxF f (b.set m "X") (d + 1) false al be) ∧
        max acc (minimaxF f (b.set m "X") (d + 1) false al be) < posInf := by
      rcases hacc with h | h
      · exact ⟨lt_max_of_lt_left h.1, max_lt h.2 hs.2⟩
      · rw [h.1, negInf]
        rw [max_eq_right bot_le]
        exact hs
    simp only [maxLoop]
    split
    · exact hacc2
    · exact ih _ _ _ (fun m2 hm2 => hch m2 (List.mem_cons_of_mem _ hm2))
        (Or.inl hacc2)

theorem minLoop_bounds (f : Nat) (b : Board) (d : Nat) (moves : List Nat) :
    ∀ (acc be al : Score),
      (∀ m ∈ moves, ∀ (al2 be2 : Score),
        negInf < minimaxF f (b.set m "O") (d + 1) true al2 be2 ∧
        minimaxF f (b.set m "O") (d + 1) true al2 be2 < posInf) →
      ((negInf < acc ∧ acc < posInf) ∨ (acc = posInf ∧ moves ≠ [])) →
      negInf < minLoop f b d moves acc be al ∧
        minLoop f b d moves acc be al < posInf := by
  induction moves with
  | nil =>
    intro acc be al _ hacc
    rcases hacc with h | h
    · rw [minLoop]; exact h
    · exact absurd rfl h.2
  | cons m rest ih =>
    intro acc be al hch hacc
    have hs := hch m (List.mem_cons_self _ _) al be
    have hacc2 : negInf < min acc (minimaxF f (b.set m "O") (d + 1) true al be) ∧
        min acc (minimaxF f (b.set m "O") (d + 1) true al be) < posInf := by
      rcases hacc with h | h
      · exact ⟨lt_min h.1 hs.1, min_lt_of_left_lt h.2⟩
      · rw [h.1]
        rw [min_eq_right (le_of_lt hs.2)]
        exact hs
    simp only [minLoop]
    split
    · exact hacc2
    · exact ih _ _ _ (fun m2 hm2 => hch m2 (List.mem_cons_of_mem _ hm2))
        (Or.inl hacc2)

theorem minimaxF_bounds (fuel : Nat) :
    ∀ (b : Board), b.length = 9 → validMarks b →
      ∀ (d : Nat) (mx : Bool) (al be : Score),
        negInf < minimaxF fuel b d mx al be ∧ minimaxF fuel b d mx al be < posInf := by
  induction fuel with
  | zero =>
    intro b _ _ d mx al be
    have hfin : ∃ z, minimaxF 0 b d mx al be = finScore z := by
      by_cases h1 : check_winner b = some "X"
      · exact ⟨10 - (d : Int), by rw [minimaxF.eq_def]; simp [h1]⟩
      · by_cases h2 : check_winner b = some "O"
        · exact ⟨(d : Int) - 10, by rw [minimaxF.eq_def]; simp [h1, h2]⟩
        · by_cases h3 : check_winner b = some "Tie"
          · exact ⟨0, by rw [minimaxF.eq_def]; simp [h1, h2, h3]⟩
          · exact ⟨0, by rw [minimaxF.eq_def]; simp [h1, h2, h3]⟩
    obtain ⟨z, hz⟩ := hfin
    rw [hz]
    exact ⟨negInf_lt_finScore z, finScore_lt_posInf z⟩
  | succ f ih =>
    intro b hb hv d mx al be
    by_cases h1 : check_winner b = some "X"
    · have hz : minimaxF (f + 1) b d mx al be = finScore (10 - (d : Int)) := by
        rw [minimaxF.eq_def]; simp [h1]
      rw [hz]
      exact ⟨negInf_lt_finScore _, finScore_lt_posInf _⟩
    · by_cases h2 : check_winner b = some "O"
      · have hz : minimaxF (f + 1) b d mx al be = finScore ((d : Int) - 10) := by
          rw [minimaxF.eq_def]; simp [h1, h2]
        rw [hz]
        exact ⟨negInf_lt_finScore _, finScore_lt_posInf _⟩
      · by_cases h3 : check_winner b = some "Tie"
        · have hz : minimaxF (f + 1) b d mx al be = finScore 0 := by
            rw [minimaxF.eq_def]; simp [h1, h2, h3]
          rw [hz]
          exact ⟨negInf_lt_finScore _, finScore_lt_posInf _⟩
        · obtain ⟨hsp, hne⟩ := check_winner_else_space hv hb h1 h2 h3
          have hb2 : ∀ (m : Nat) (v : String), (b.set m v).length = 9 := by
            intro m v; rw [List.length_set]; exact hb
          have hstep : minimaxF (f + 1) b d mx al be =
              if mx then maxLoop f b d (get_available_moves b) negInf al be
              else minLoop f b d (get_available_moves b) posInf be al := by
            rw [minimaxF.eq_def]; simp [h1, h2, h3]
          rw [hstep]
          cases mx with
          | true =>
            rw [if_pos rfl]
            exact maxLoop_bounds f b d (get_available_moves b) negInf al be
              (fun m _ al2 be2 => ih (b.set m "X") (hb2 m "X")
                (validMarks_set hv m (Or.inr (Or.inl rfl))) (d + 1) false al2 be2)
              (Or.inr ⟨rfl, hne⟩)
          | false =>
            rw [if_neg (by decide)]
            exact minLoop_bounds f b d (get_available_moves b) posInf be al
              (fun m _ al2 be2 => ih (b.set m "O") (hb2 m "O")
                (validMarks_set hv m (Or.inr (Or.inr rfl))) (d + 1) true al2 be2)
              (Or.inr ⟨rfl, hne⟩)

theorem scoreFor_bounds (b : Board) (hb : b.length = 9) (hv : validMarks b)
    (player : String) (hp : player = "X" ∨ player = "O") (m : Nat) :
    negInf < scoreFor b player m ∧ scoreFor b player m < posInf := by
  rw [scoreFor, minimax]
  refine minimaxF_bounds _ (b.set m player) ?_ ?_ 0 _ negInf posInf
  · rw [List.length_set]; exact hb
  · exact validMarks_set hv m (Or.inr hp)

theorem bestLoop_X_stay (score : Nat → Score) (moves : List Nat) :
    ∀ (acc : Score) (best : Int), (∀ m ∈ moves, ¬ acc < score m) →
      bestLoop score "X" moves acc best = best := by
  induction moves with
  | nil => intro acc best _; rfl
  | cons m rest ih =>
    intro acc best h
    have hm := h m (List.mem_cons_self _ _)
    have hstep : bestLoop score "X" (m :: rest) acc best
        = bestLoop score "X" rest acc best := by
      simp [bestLoop, hm]
    rw [hstep]
    exact ih acc best fun m2 hm2 => h m2 (List.mem_cons_of_mem _ hm2)

theorem bestLoop_O_stay (score : Nat → Score) (moves : List Nat) :
    ∀ (acc : Score) (best : Int), (∀ m ∈ moves, ¬ score m < acc) →
      bestLoop score "O" moves acc best = best := by
  induction moves with
  | nil => intro acc best _; rfl
  | cons m rest ih =>
    intro acc best h
    have hm := h m (List.mem_cons_self _ _)
    have hstep : bestLoop score "O" (m :: rest) acc best
        = bestLoop score "O" rest acc best := by
      simp [bestLoop, hm]
    rw [hstep]
    exact ih acc best fun m2 hm2 => h m2 (List.mem_cons_of_mem _ hm2)

theorem bestLoop_X_argmax (score : Nat → Score) (moves : List Nat) :
    ∀ (acc : Score) (best : Int), (∃ m ∈ moves, acc < score m) →
      ∃ k, ∃ hk : k < moves.length,
        bestLoop score "X" moves acc best = Int.ofNat (moves.get ⟨k, hk⟩) ∧
        acc < score (moves.get ⟨k, hk⟩) ∧
        (∀ m ∈ moves, score m ≤ score (moves.get ⟨k, hk⟩)) ∧
        (∀ j, (hj : j < k) → score (moves.get ⟨j, Nat.lt_trans hj hk⟩) <
          score (moves.get ⟨k, hk⟩)) := by
  induction moves with
  | nil => intro acc best h; simp at h
  | cons m rest ih =>
    intro acc best h
    by_cases hm : acc < score m
    · have hstep : bestLoop score "X" (m :: rest) acc best
          = bestLoop score "X" rest (score m) (Int.ofNat m) := by
        simp [bestLoop, hm]
      by_cases hrest : ∃ m2 ∈ rest, score m < score m2
      · obtain ⟨k, hk, heq, hgt, hle, hstrict⟩ := ih (score m) (Int.ofNat m) hrest
        have hget : (m :: rest).get ⟨k + 1, Nat.succ_lt_succ hk⟩
            = rest.get ⟨k, hk⟩ := rfl
        refine ⟨k + 1, Nat.succ_lt_succ hk, ?_, ?_, ?_, ?_⟩
        · rw [hstep, heq, hget]
        · rw [hget]; exact lt_trans hm hgt
        · intro x hx
          rw [hget]
          rcases List.mem_cons.mp hx with h2 | h2
          · subst h2; exact le_of_lt hgt
          · exact hle x h2
        · intro j hj
          rw [hget]
          cases j with
          | zero => exact hgt
          | succ j2 => exact hstrict j2 (Nat.lt_of_succ_lt_succ hj)
      · have hstay : bestLoop score "X" rest (score m) (Int.ofNat m) = Int.ofNat m :=
          bestLoop_X_stay score rest (score m) (Int.ofNat m)
            fun m2 hm2 hlt => hrest ⟨m2, hm2, hlt⟩
        have hget : (m :: rest).get ⟨0, Nat.succ_pos rest.length⟩ = m := rfl
        refine ⟨0, Nat.succ_pos rest.length, ?_, ?_, ?_, ?_⟩
        · rw [hstep, hstay, hget]
        · rw [hget]; exact hm
        · intro x hx
          rw [hget]
          rcases List.mem_cons.mp hx with h2 | h2
          · subst h2; exact le_refl _
          · exact le_of_not_lt fun hlt => hrest ⟨x, h2, hlt⟩
        · intro j hj
          exact absurd hj (Nat.not_lt_zero j)
    · have hstep : bestLoop score "X" (m :: rest) acc best
          = bestLoop score "X" rest acc best := by
        simp [bestLoop, hm]
      have hrest : ∃ m2 ∈ rest, acc < score m2 := by
        obtain ⟨m2, hm2, h2⟩ := h
        rcases List.mem_cons.mp hm2 with h3 | h3
        · subst h3; exact absurd h2 hm
        · exact ⟨m2, h3, h2⟩
      obtain ⟨k, hk, heq, hgt, hle, hstrict⟩ := ih acc best hrest
      have hget : (m :: rest).get ⟨k + 1, Nat.succ_lt_succ hk⟩
          = rest.get ⟨k, hk⟩ := rfl
      refine ⟨k + 1, Nat.succ_lt_succ hk, ?_, ?_, ?_, ?_⟩
      · rw [hstep, heq, hget]
      · rw [hget]; exact hgt
      · intro x hx
        rw [hget]
        rcases List.mem_cons.mp hx with h2 | h2
        · subst h2; exact le_trans (le_of_not_lt hm) (le_of_lt hgt)
        · exact hle x h2
      · intro j hj
        rw [hget]
        cases j with
        | zero => exact lt_of_le_of_lt (le_of_not_lt hm) hgt
        | succ j2 => exact hstrict j2 (Nat.lt_of_succ_lt_succ hj)

theorem bestLoop_O_argmin (score : Nat → Score) (moves : List Nat) :
    ∀ (acc : Score) (best : Int), (∃ m ∈ moves, score m < acc) →
      ∃ k, ∃ hk : k < moves.length,
        bestLoop score "O" moves acc best = Int.ofNat (moves.get ⟨k, hk⟩) ∧
        score (moves.get ⟨k, hk⟩) < acc ∧
        (∀ m ∈ moves, score (moves.get ⟨k, hk⟩) ≤ score m) ∧
        (∀ j, (hj : j < k) → score (moves.get ⟨k, hk⟩) <
          score (moves.get ⟨j, Nat.lt_trans hj hk⟩)) := by
  induction moves with
  | nil => intro acc best h; simp at h
  | cons m rest ih =>
    intro acc best h
    by_cases hm : score m < acc
    · have hstep : bestLoop score "O" (m :: rest) acc best
          = bestLoop score "O" rest (score m) (Int.ofNat m) := by
        simp [bestLoop, hm]
      by_cases hrest : ∃ m2 ∈ rest, score m2 < score m
      · obtain ⟨k, hk, heq, hgt, hle, hstrict⟩ := ih (score m) (Int.ofNat m) hrest
        have hget : (m :: rest).get ⟨k + 1, Nat.succ_lt_succ hk⟩
            = rest.get ⟨k, hk⟩ := rfl
        refine ⟨k + 1, Nat.succ_lt_succ hk, ?_, ?_, ?_, ?_⟩
        · rw [hstep, heq, hget]
        · rw [hget]; exact lt_trans hgt hm
        · intro x hx
          rw [hget]
          rcases List.mem_cons.mp hx with h2 | h2
          · subst h2; exact le_of_lt hgt
          · exact hle x h2
        · intro j hj
          rw [hget]
          cases j with
          | zero => exact hgt
          | succ j2 => exact hstrict j2 (Nat.lt_of_succ_lt_succ hj)
      · have hstay : bestLoop score "O" rest (score m) (Int.ofNat m) = Int.ofNat m :=
          bestLoop_O_stay score rest (score m) (Int.ofNat m)
            fun m2 hm2 hlt => hrest ⟨m2, hm2, hlt⟩
        have hget : (m :: rest).get ⟨0, Nat.succ_pos rest.length⟩ = m := rfl
        refine ⟨0, Nat.succ_pos rest.length, ?_, ?_, ?_, ?_⟩
        · rw [hstep, hstay, hget]
        · rw [hget]; exact hm
        · intro x hx
          rw [hget]
          rcases List.mem_cons.mp hx with h2 | h2
          · subst h2; exact le_refl _
          · exact le_of_not_lt fun hlt => hrest ⟨x, h2, hlt⟩
        · intro j hj
          exact absurd hj (Nat.not_lt_zero j)
    · have hstep : bestLoop score "O" (m :: rest) acc best
          = bestLoop score "O" rest acc best := by
        simp [bestLoop, hm]
      have hrest : ∃ m2 ∈ rest, score m2 < acc := by
        obtain ⟨m2, hm2, h2⟩ := h
        rcases List.mem_cons.mp hm2 with h3 | h3
        · subst h3; exact absurd h2 hm
        · exact ⟨m2, h3, h2⟩
      obtain ⟨k, hk, heq, hgt, hle, hstrict⟩ := ih acc best hrest
      have hget : (m :: rest).get ⟨k + 1, Nat.succ_lt_succ hk⟩
          = rest.get ⟨k, hk⟩ := rfl
      refine ⟨k + 1, Nat.succ_lt_succ hk, ?_, ?_, ?_, ?_⟩
      · rw [hstep, heq, hget]
      · rw [hget]; exact hgt
      · intro x hx
        rw [hget]
        rcases List.mem_cons.mp hx with h2 | h2
        · subst h2; exact le_trans (le_of_lt hgt) (le_of_not_lt hm)
        · exact hle x h2
      · intro j hj
        rw [hget]
        cases j with
        | zero => exact lt_of_lt_of_le hgt (le_of_not_lt hm)
        | succ j2 => exact hstrict j2 (Nat.lt_of_succ_lt_succ hj)

theorem avail_sorted (b : Board) :
    List.Pairwise (fun m1 m2 => m1 < m2) (get_available_moves b) :=
  (List.pairwise_lt_range 9).filter _

/-- C4: on a nine-cell board of legal marks with at least one available move,
the available moves are listed in strictly ascending cell order and
`get_best_move` is the first move attaining the optimal score — maximal for X,
minimal for O — with every earlier candidate scoring strictly worse, i.e. the
current best is replaced only under a strict comparison; being a function of
the board and player alone, repeated calls agree. -/
theorem c4_best_move (b : Board) (hb : b.length = 9) (hv : validMarks b)
    (hne : get_available_moves b ≠ []) :
    List.Pairwise (fun m1 m2 => m1 < m2) (get_available_moves b) ∧
    firstMaxChoice b ∧ firstMinChoice b := by
  obtain ⟨m0, hm0⟩ := List.exists_mem_of_ne_nil _ hne
  refine ⟨avail_sorted b, ?_, ?_⟩
  · have hgb : get_best_move b "X"
        = bestLoop (scoreFor b "X") "X" (get_available_moves b) negInf (-1) := by
      rw [get_best_move, if_pos rfl]
    obtain ⟨k, hk, heq, _, hle, hstrict⟩ :=
      bestLoop_X_argmax (scoreFor b "X") (get_available_moves b) negInf (-1)
        ⟨m0, hm0, (scoreFor_bounds b hb hv "X" (Or.inl rfl) m0).1⟩
    exact ⟨k, hk, by rw [hgb, heq], hle, hstrict⟩
  · have hgb : get_best_move b "O"
        = bestLoop (scoreFor b "O") "O" (get_available_moves b) posInf (-1) := by
      rw [get_best_move, if_neg (by decide)]
    obtain ⟨k, hk, heq, _, hle, hstrict⟩ :=
      bestLoop_O_argmin (scoreFor b "O") (get_available_moves b) posInf (-1)
        ⟨m0, hm0, (scoreFor_bounds b hb hv "O" (Or.inr rfl) m0).2⟩
    exact ⟨k, hk, by rw [hgb, heq], hle, hstrict⟩

/-- C4 witness: a concrete board with three empty cells (both remaining
winning cells 6 and 8 score equally for X; the tie breaks to 6). -/
theorem c4_witness :
    List.Pairwise (fun m1 m2 => m1 < m2) (get_available_moves demoSearchBoard) ∧
    firstMaxChoice demoSearchBoard ∧ firstMinChoice demoSearchBoard :=
  c4_best_move demoSearchBoard (by decide) (by decide) (by decide)

end TTT
